import Mathlib

/-!
Verification of the Zimcoin consensus core (blockchain_utils.py, transactions.py,
blocks.py, chain.py) against its natural-language specification.

Modelling conventions, fixed once for the whole file:

* Byte strings are modelled as `List Nat` (`Bytes`).  Addresses are the 20-byte
  hashes used as dictionary keys.
* Python integers are unbounded, so balances and nonces are `Int` and
  difficulties, heights and timestamps are `Nat` (they are never negative in
  the source).  The 8- and 16-byte little-endian encoders are total functions;
  they coincide with Python int.to_bytes on the range where Python does not
  raise OverflowError (0 <= n < 2^64 resp. 2^128), and theorems about code
  paths that reach an encoder carry the corresponding bound as a hypothesis.
* The cryptographic primitives (SHA-1, SHA-256, ECDSA over secp256k1) are
  external libraries.  They are modelled as an abstract `Crypto` bundle of
  functions; every definition translated from the source is parametric in it.
  Public keys circulate in DER-serialized form, so pk_serialize on bytes is the
  identity for encoding and the abstract ecdsaVerify receives the DER bytes.
* Python dictionaries of mutable UserState objects are modelled twice, at the
  granularity each claim needs:
  - a value-level model `UserMap := Bytes -> UserState` (total function with
    the defaultdict default (balance 0, nonce -1) for absent keys), used for
    the functional claims; and
  - a heap model (`Heap`, `PyDict`) in which UserState objects live at
    numeric references and dictionaries map keys to references, used for the
    aliasing / frame claims: it makes visible that
    defaultdict(lambda: UserState(0,-1), previous) in blocks.py line 127 is a
    shallow copy sharing UserState objects with the caller, while
    copy.deepcopy in blocks.py line 206 and chain.py lines 153-154 allocates
    fresh objects.
* A Python function that can raise (AssertionError, InvalidSignature,
  IndexError, ZeroDivisionError) is modelled with `Option`/a Bool success
  flag; `none`/`false` means the call raised, any raise aborts the caller.
-/

/-- Byte strings (each entry one byte). -/
abbrev Bytes := List Nat

/-- blocks.py lines 13-33: UserState holds a balance and a nonce. -/
structure UserState where
  balance : Int
  nonce : Int
deriving DecidableEq, Repr

/-- blocks.py lines 35-52: earn returns the updated balance (undo subtracts). -/
def UserState.earn (u : UserState) (amount : Int) (undo : Bool) : Int :=
  if !undo then u.balance + amount else u.balance - amount

/-- blocks.py lines 54-73: spend returns the updated balance and nonce
(undo adds the amount back and decrements the nonce). -/
def UserState.spend (u : UserState) (amount : Int) (undo : Bool) : Int × Int :=
  if !undo then (u.balance - amount, u.nonce + 1) else (u.balance + amount, u.nonce - 1)

/-- The defaultdict default from blocks.py line 127: UserState(0, -1). -/
def defaultUserState : UserState := ⟨0, -1⟩

/-- Abstract model of the external cryptographic primitives (SHA-1, SHA-256,
ECDSA verification).  Every embedded definition is parametric in this bundle;
hash arguments are the full concatenated pre-image, matching sha256_hash in
blockchain_utils.py which feeds each component of its list into one digest. -/
structure Crypto where
  sha1 : Bytes → Bytes
  sha256 : Bytes → Bytes
  ecdsaVerify : Bytes → Bytes → Bytes → Bool  -- DER public key, signature, message hash

/-- blockchain_utils.py lines 43-62: generate_address is the SHA-1 of the
DER-serialized public key; on an already-serialized key pk_serialize is the
identity. -/
def generate_address (c : Crypto) (public_key : Bytes) : Bytes :=
  c.sha1 public_key

/-- Little-endian 8-byte encoding, the total model of Python
n.to_bytes(8, little); faithful for 0 <= n < 2^64. -/
def le8 (n : Int) : Bytes :=
  (List.range 8).map (fun i => n.toNat / 256 ^ i % 256)

/-- Little-endian 16-byte encoding, the total model of Python
n.to_bytes(16, little); faithful for 0 <= n < 2^128. -/
def le16 (n : Nat) : Bytes :=
  (List.range 16).map (fun i => n / 256 ^ i % 256)

/-- int.from_bytes(b, "big"): big-endian interpretation of a byte string. -/
def intBE (b : Bytes) : Nat :=
  b.foldl (fun acc x => acc * 256 + x) 0

/-- Fuelled floor of log base 2 (0 for inputs 0 and 1).  The fuel 300 in
`log2floor` is enough for every input below 2^300. -/
def log2fuel : Nat → Nat → Nat
  | 0, _ => 0
  | fuel + 1, n => if n ≤ 1 then 0 else log2fuel fuel (n / 2) + 1

def log2floor (n : Nat) : Nat := log2fuel 300 n

/-- Model of the Python expression (2**256)/difficulty from blocks.py lines
179 and 274.  Python / on two ints is IEEE-754 binary64 true division: the
exact rational 2^256/d rounded to 53 significant bits, ties to even.  For
1 <= d < 2^128 the quotient lies in (2^128, 2^256], so the float is a normal
number with a nonnegative exponent and its exact value is the integer computed
here: with k the floor of log2 of the quotient and e = k - 52, the significand
is the half-to-even rounding of 2^256 / (d * 2^e). -/
def pyFloatDivPow256 (d : Nat) : Nat :=
  let q := 2 ^ 256 / d
  let k := log2floor q
  let e := k - 52
  let D := d * 2 ^ e
  let a := 2 ^ 256 / D
  let r := 2 ^ 256 % D
  let a' := if 2 * r < D then a else if D < 2 * r then a + 1
            else if a % 2 = 0 then a else a + 1
  a' * 2 ^ e

/-- The proof-of-work admissibility test of blocks.py line 179:
int.from_bytes(block_id, "big") <= (2**256)/difficulty. -/
def powAccept (block_id : Bytes) (difficulty : Nat) : Bool :=
  decide (intBE block_id ≤ pyFloatDivPow256 difficulty)

/-- The acceptance test of the mining search, blocks.py lines 248 and 274:
a candidate digest solves the puzzle iff its big-endian value is at most
target = (2**256)/difficulty. -/
def mineAccept (digest : Bytes) (difficulty : Nat) : Bool :=
  decide (intBE digest ≤ pyFloatDivPow256 difficulty)

/-- transactions.py lines 19-42: the Transaction record.  The public key is
kept in DER-serialized form. -/
structure Transaction where
  sender_hash : Bytes
  recipient_hash : Bytes
  sender_public_key : Bytes
  amount : Int
  fee : Int
  nonce : Int
  signature : Bytes
  txid : Bytes
deriving DecidableEq, Repr

/-- transactions.py lines 45-103: Transaction.verify.  The Python method
either returns True or raises (AssertionError / InvalidSignature); `false`
here models a raise.  Checks appear in source order: sender hash length,
sender hash = SHA-1 of the public key, recipient hash length, amount whole
(amount % 1 == 0, always true on integers), 0 < amount <= sender_balance,
fee whole, 0 <= fee <= amount, nonce = sender_previous_nonce + 1, txid
recomputation, ECDSA signature over SHA-256 of
recipient_hash || amount_LE8 || fee_LE8 || nonce_LE8. -/
def Transaction.verify (c : Crypto) (t : Transaction)
    (sender_balance sender_previous_nonce : Int) : Bool :=
  decide (t.sender_hash.length = 20) &&
  decide (t.sender_hash = generate_address c t.sender_public_key) &&
  decide (t.recipient_hash.length = 20) &&
  decide (t.amount % 1 = 0) &&
  (decide (0 < t.amount) && decide (t.amount ≤ sender_balance)) &&
  decide (t.fee % 1 = 0) &&
  (decide (0 ≤ t.fee) && decide (t.fee ≤ t.amount)) &&
  decide (t.nonce = sender_previous_nonce + 1) &&
  decide (t.txid = c.sha256 (t.sender_hash ++ t.recipient_hash ++ t.sender_public_key ++
            le8 t.amount ++ le8 t.fee ++ le8 t.nonce ++ t.signature)) &&
  c.ecdsaVerify t.sender_public_key t.signature
    (c.sha256 (t.recipient_hash ++ le8 t.amount ++ le8 t.fee ++ le8 t.nonce))

/-- blocks.py lines 90-112: the Block record. -/
structure Block where
  previous : Bytes
  height : Nat
  miner : Bytes
  transactions : List Transaction
  timestamp : Nat
  difficulty : Nat
  block_id : Bytes
  nonce : Nat
deriving DecidableEq, Repr

/-- Value-level model of a Python dict of UserState objects read through
defaultdict(lambda: UserState(0,-1), _): a total function that is
`defaultUserState` on absent keys. -/
abbrev UserMap := Bytes → UserState

/-- Pointwise dictionary write: d[k] = v. -/
def mapSet (m : UserMap) (k : Bytes) (v : UserState) : UserMap :=
  fun a => if a = k then v else m a

/-- The three dictionary statements of one loop iteration of
Block.update_states (blocks.py lines 140-147), value level: credit the miner
by the fee via earn, update the sender via spend, credit the recipient by
amount - fee via earn.  Each statement reads the current object and writes
back, exactly as the Python attribute assignments do. -/
def applyTx (miner : Bytes) (m : UserMap) (t : Transaction) : UserMap :=
  let m1 := mapSet m miner ⟨(m miner).earn t.fee false, (m miner).nonce⟩
  let m2 := mapSet m1 t.sender_hash
    ⟨((m1 t.sender_hash).spend t.amount false).1, ((m1 t.sender_hash).spend t.amount false).2⟩
  mapSet m2 t.recipient_hash
    ⟨(m2 t.recipient_hash).earn (t.amount - t.fee) false, (m2 t.recipient_hash).nonce⟩

/-- The transaction loop of Block.update_states (blocks.py lines 134-147):
each transaction is verified against the current view of the sender before
its effects are applied; a failing verification raises, aborting the block
(modelled by `none`). -/
def applyTxs (c : Crypto) (miner : Bytes) : List Transaction → UserMap → Option UserMap
  | [], m => some m
  | t :: ts, m =>
    if t.verify c (m t.sender_hash).balance (m t.sender_hash).nonce then
      applyTxs c miner ts (applyTx miner m t)
    else
      none

/-- blocks.py lines 114-149: Block.update_states at value level.  The miner
is credited the mining reward 10000 first, then the transactions run in list
order.  (The aliasing of the Python shallow copy is invisible at value level;
it is modelled separately by the heap embedding below.) -/
def Block.update_states (c : Crypto) (b : Block) (previous_user_states : UserMap) :
    Option UserMap :=
  let m0 := mapSet previous_user_states b.miner
    ⟨(previous_user_states b.miner).earn 10000 false, (previous_user_states b.miner).nonce⟩
  applyTxs c b.miner b.transactions m0

/-- The five header checks of Block.verify_and_get_changes (blocks.py lines
164-179), shared by the value-level and heap-level embeddings: difficulty
matches the argument, block_id matches the SHA-256 of the header pre-image,
at most 25 transactions, 20-byte miner hash, and the proof-of-work bound.
A zero difficulty makes the Python target computation raise
ZeroDivisionError, which aborts verification like any other failure. -/
def Block.headerChecks (c : Crypto) (b : Block) (difficulty : Int) : Bool :=
  decide ((b.difficulty : Int) = difficulty) &&
  decide (b.block_id = c.sha256 (b.previous ++ b.miner ++
    (b.transactions.map (fun t => t.txid)).flatten ++
    le8 (b.timestamp : Int) ++ le16 b.difficulty ++ le8 (b.nonce : Int))) &&
  decide (b.transactions.length ≤ 25) &&
  decide (b.miner.length = 20) &&
  decide (b.difficulty ≠ 0) &&
  powAccept b.block_id b.difficulty

/-- blocks.py lines 152-190: Block.verify_and_get_changes at value level:
run the header checks, then the state transition. -/
def Block.verify_and_get_changes (c : Crypto) (b : Block) (difficulty : Int)
    (previous_user_states : UserMap) : Option UserMap :=
  if b.headerChecks c difficulty then b.update_states c previous_user_states else none

/-- One loop iteration of Block.get_changes_for_undo (blocks.py lines
211-220): the same three statements as applyTx but with undo = True. -/
def undoTx (miner : Bytes) (m : UserMap) (t : Transaction) : UserMap :=
  let m1 := mapSet m miner ⟨(m miner).earn t.fee true, (m miner).nonce⟩
  let m2 := mapSet m1 t.sender_hash
    ⟨((m1 t.sender_hash).spend t.amount true).1, ((m1 t.sender_hash).spend t.amount true).2⟩
  mapSet m2 t.recipient_hash
    ⟨(m2 t.recipient_hash).earn (t.amount - t.fee) true, (m2 t.recipient_hash).nonce⟩

/-- blocks.py lines 193-222: Block.get_changes_for_undo at value level.  The
Python code works on a deep copy of user_states_after (a value copy here),
removes the mining reward, then undoes every transaction in list order with
no re-verification; it cannot fail. -/
def Block.get_changes_for_undo (b : Block) (user_states_after : UserMap) : UserMap :=
  let m0 := mapSet user_states_after b.miner
    ⟨(user_states_after b.miner).earn 10000 true, (user_states_after b.miner).nonce⟩
  b.transactions.foldl (undoTx b.miner) m0

/-- chain.py lines 22-35: the BlockchainState record at value level. -/
structure BlockchainState where
  longest_chain : List Block
  user_states : UserMap
  total_difficulty : Int

/-- A throwaway block used only as the default of List.getD at indices that
are provably in range. -/
def dummyBlock : Block :=
  ⟨[], 0, [], [], 0, 0, [], 0⟩

/-- chain.py lines 37-71: calculate_difficulty on the chain alone (the method
reads nothing else of the state).  chain[-10:] is drop (len - 10), chain[-1]
and chain[-11] are the elements at indices len - 1 and len - 11; both indices
exist because the branch requires len > 10.  Python // is floor division,
Int.fdiv. -/
def calcDifficulty (chain : List Block) : Int :=
  if chain.length ≤ 10 then 1000
  else
    let window := chain.drop (chain.length - 10)
    let total_difficulty_for_period :=
      window.foldl (fun acc b => acc + (b.difficulty : Int)) 0
    let block_prev := chain.getD (chain.length - 1) dummyBlock
    let block_n_minus_11 := chain.getD (chain.length - 11) dummyBlock
    let total_time_for_period :=
      (block_prev.timestamp : Int) - (block_n_minus_11.timestamp : Int)
    let total_time_for_period := if total_time_for_period = 0 then 1 else total_time_for_period
    Int.fdiv total_difficulty_for_period total_time_for_period * 120

def BlockchainState.calculate_difficulty (S : BlockchainState) : Int :=
  calcDifficulty S.longest_chain

/-- The three pre-checks of verify_and_apply_block (chain.py lines 87-97),
shared by the value-level and heap-level embeddings: height equals the chain
length, previous is the 32-byte zero string on an empty chain and otherwise
the id of the tip, and on a non-empty chain the timestamp is not below the
tip timestamp. -/
def appendPreOk (chain : List Block) (b : Block) : Bool :=
  decide (b.height = chain.length) &&
  (match chain.getLast? with
   | none => decide (b.previous = List.replicate 32 0)
   | some tip => decide (b.previous = tip.block_id) && decide (tip.timestamp ≤ b.timestamp))

/-- chain.py lines 73-110: verify_and_apply_block at value level.  On success
the block is appended, its difficulty added, and user_states replaced by the
returned map; any failure raises and yields `none`. -/
def BlockchainState.verify_and_apply_block (c : Crypto) (S : BlockchainState) (b : Block) :
    Option BlockchainState :=
  if appendPreOk S.longest_chain b then
    match b.verify_and_get_changes c S.calculate_difficulty S.user_states with
    | none => none
    | some updated_states =>
      some ⟨S.longest_chain ++ [b], updated_states, S.total_difficulty + (b.difficulty : Int)⟩
  else none

/-- chain.py lines 112-133: undo_last_block at value level.  list.pop on an
empty chain raises IndexError (`none`); otherwise the tail block is removed,
its difficulty subtracted, and its changes undone. -/
def BlockchainState.undo_last_block (S : BlockchainState) : Option BlockchainState :=
  match S.longest_chain.getLast? with
  | none => none
  | some removed_block =>
    some ⟨S.longest_chain.dropLast,
          removed_block.get_changes_for_undo S.user_states,
          S.total_difficulty - (removed_block.difficulty : Int)⟩

/-- The undo loop of verify_reorg (chain.py lines 161-169).  Iterating over
reversed(longest_chain) while undo_last_block pops the tail always inspects
the current tip, so the loop is: while the tip exists and has height at least
split_height, undo; it stops at the first lower block or an exhausted chain.
The fuel argument (instantiated with the chain length, an upper bound on the
number of pops) only makes the recursion structural. -/
def undoAboveFuel (split_height : Nat) : Nat → BlockchainState → BlockchainState
  | 0, S => S
  | fuel + 1, S =>
    match S.longest_chain.getLast? with
    | none => S
    | some tip =>
      if split_height ≤ tip.height then
        undoAboveFuel split_height fuel
          ⟨S.longest_chain.dropLast,
           tip.get_changes_for_undo S.user_states,
           S.total_difficulty - (tip.difficulty : Int)⟩
      else S

/-- The replay loop of verify_reorg (chain.py lines 172-173): apply each
block of the new branch in order; any failure aborts. -/
def applyChain (c : Crypto) : List Block → BlockchainState → Option BlockchainState
  | [], S => some S
  | b :: bs, S =>
    match S.verify_and_apply_block c b with
    | none => none
    | some S' => applyChain c bs S'

/-- chain.py lines 140-181: verify_reorg at value level.  new_branch[0] on an
empty branch raises IndexError.  The working state starts from deep copies of
the old chain and map (value copies here); blocks of the old chain at or
above the split height are undone, the branch is replayed, and the result is
returned only if its total difficulty strictly exceeds the old one. -/
def verify_reorg (c : Crypto) (old_state : BlockchainState) (new_branch : List Block) :
    Option BlockchainState :=
  match new_branch with
  | [] => none
  | b0 :: _ =>
    let split_height := b0.height
    let start := BlockchainState.mk old_state.longest_chain old_state.user_states
      old_state.total_difficulty
    let rewound := undoAboveFuel split_height start.longest_chain.length start
    match applyChain c new_branch rewound with
    | none => none
    | some new_state =>
      if old_state.total_difficulty < new_state.total_difficulty then some new_state
      else none

/-!
Heap-level embedding.  Python UserState objects are mutable and dictionaries
hold references to them; defaultdict(factory, d) copies only the key-to-
reference table, not the objects.  The heap model makes this explicit:
UserState objects live at numeric references in a `Heap`, a `PyDict` maps
byte keys to references, and the functions below are the same source lines as
the value-level embedding but with every Python attribute assignment turned
into a heap write and every dictionary access into a reference lookup that,
through defaultdict, allocates a fresh default object on a miss.  Blocks,
byte strings and integers are immutable in Python and stay plain values. -/

/-- A heap of UserState objects: an allocation counter and the store.
References at or beyond `next` are unallocated. -/
structure Heap where
  next : Nat
  val : Nat → UserState

/-- Allocate a fresh object, returning its reference. -/
def halloc (h : Heap) (u : UserState) : Nat × Heap :=
  (h.next, ⟨h.next + 1, fun r => if r = h.next then u else h.val r⟩)

/-- Overwrite the object at reference r (a Python attribute assignment). -/
def hwrite (h : Heap) (r : Nat) (u : UserState) : Heap :=
  ⟨h.next, fun r' => if r' = r then u else h.val r'⟩

/-- A Python dict of UserState objects: an insertion-ordered table of
(key, reference) entries with unique keys. -/
structure PyDict where
  entries : List (Bytes × Nat)
deriving DecidableEq

/-- Plain dictionary lookup: the reference stored under k, if any. -/
def PyDict.lookup (d : PyDict) (k : Bytes) : Option Nat :=
  (d.entries.find? (fun e => decide (e.1 = k))).map (fun e => e.2)

/-- defaultdict __getitem__ with factory UserState(0, -1) (blocks.py line
127): return the stored reference, or allocate a fresh default object and
insert it under k. -/
def PyDict.getOrCreate (d : PyDict) (h : Heap) (k : Bytes) : Nat × PyDict × Heap :=
  match d.lookup k with
  | some r => (r, d, h)
  | none =>
    let (r, h') := halloc h defaultUserState
    (r, ⟨d.entries ++ [(k, r)]⟩, h')

/-- The references a dictionary holds. -/
def PyDict.refs (d : PyDict) : List Nat :=
  d.entries.map (fun e => e.2)

/-- Heap-level form of the statement d[k].balance = d[k].earn(amount, undo)
(blocks.py lines 131, 141, 147, 208, 214, 220). -/
def earnAtH (d : PyDict) (h : Heap) (k : Bytes) (amount : Int) (undo : Bool) :
    PyDict × Heap :=
  let (r, d', h') := d.getOrCreate h k
  (d', hwrite h' r ⟨(h'.val r).earn amount undo, (h'.val r).nonce⟩)

/-- Heap-level form of the statement
d[k].balance, d[k].nonce = d[k].spend(amount, undo) (blocks.py lines 144,
217): spend reads the current object, then both attributes are written. -/
def spendAtH (d : PyDict) (h : Heap) (k : Bytes) (amount : Int) (undo : Bool) :
    PyDict × Heap :=
  let (r, d', h') := d.getOrCreate h k
  (d', hwrite h' r ⟨((h'.val r).spend amount undo).1, ((h'.val r).spend amount undo).2⟩)

/-- The transaction loop of Block.update_states at heap level (blocks.py
lines 134-147).  Reading updated_user_states[t.sender_hash] creates a default
entry on a miss before verification; a failing verification raises, returning
the working dict and the heap as they stand — with the effects of the reward
and of every earlier transaction still written into shared objects. -/
def applyTxsH (c : Crypto) (miner : Bytes) :
    List Transaction → PyDict → Heap → Bool × PyDict × Heap
  | [], d, h => (true, d, h)
  | t :: ts, d, h =>
    let (rs, d1, h1) := d.getOrCreate h t.sender_hash
    let sender_balance := (h1.val rs).balance
    let sender_previous_nonce := (h1.val rs).nonce
    if t.verify c sender_balance sender_previous_nonce then
      let (d2, h2) := earnAtH d1 h1 miner t.fee false
      let (d3, h3) := spendAtH d2 h2 t.sender_hash t.amount false
      let (d4, h4) := earnAtH d3 h3 t.recipient_hash (t.amount - t.fee) false
      applyTxsH c miner ts d4 h4
    else
      (false, d1, h1)

/-- blocks.py lines 114-149: Block.update_states at heap level.  The working
dict defaultdict(lambda: UserState(0,-1), previous_user_states) shares every
stored reference with the caller (a shallow copy); only the key table is new.
The Bool is the success flag (false = the AssertionError raised by a failing
transaction). -/
def updateStatesH (c : Crypto) (b : Block) (previous_user_states : PyDict) (h : Heap) :
    Bool × PyDict × Heap :=
  let w : PyDict := ⟨previous_user_states.entries⟩
  let (w1, h1) := earnAtH w h b.miner 10000 false
  applyTxsH c b.miner b.transactions w1 h1

/-- Deep copy of a dict of UserState objects (copy.deepcopy in blocks.py line
206 and chain.py line 154): a fresh object is allocated for every entry,
holding the current value of the original. -/
def deepcopyEntries : List (Bytes × Nat) → Heap → List (Bytes × Nat) × Heap
  | [], h => ([], h)
  | (k, r) :: es, h =>
    let (r', h') := halloc h (h.val r)
    let (es', h'') := deepcopyEntries es h'
    ((k, r') :: es', h'')

def deepcopyDict (d : PyDict) (h : Heap) : PyDict × Heap :=
  let (es, h') := deepcopyEntries d.entries h
  (⟨es⟩, h')

/-- The transaction loop of Block.get_changes_for_undo at heap level
(blocks.py lines 211-220). -/
def undoTxsH (miner : Bytes) : List Transaction → PyDict → Heap → PyDict × Heap
  | [], d, h => (d, h)
  | t :: ts, d, h =>
    let (d1, h1) := earnAtH d h miner t.fee true
    let (d2, h2) := spendAtH d1 h1 t.sender_hash t.amount true
    let (d3, h3) := earnAtH d2 h2 t.recipient_hash (t.amount - t.fee) true
    undoTxsH miner ts d3 h3

/-- blocks.py lines 193-222: Block.get_changes_for_undo at heap level.  All
mutation happens on the deep copy; deepcopy of a defaultdict keeps the
factory, so missing keys create defaults in the copy. -/
def getChangesForUndoH (b : Block) (user_states_after : PyDict) (h : Heap) :
    PyDict × Heap :=
  let (undone, h1) := deepcopyDict user_states_after h
  let (undone1, h2) := earnAtH undone h1 b.miner 10000 true
  undoTxsH b.miner b.transactions undone1 h2

/-- Chain state at heap level: the chain and total difficulty are immutable
values, the user map is a dict of heap objects. -/
structure HState where
  chain : List Block
  users : PyDict
  total : Int
deriving DecidableEq

/-- chain.py lines 73-110 at heap level.  The pre-checks and header checks
mutate nothing; a failure inside update_states leaves the state record
untouched (self.user_states still points at the old dict) but the heap keeps
whatever was written into the shared objects. -/
def verifyAndApplyBlockH (c : Crypto) (S : HState) (h : Heap) (b : Block) :
    Bool × HState × Heap :=
  if appendPreOk S.chain b then
    if b.headerChecks c (calcDifficulty S.chain) then
      let (ok, w, h') := updateStatesH c b S.users h
      if ok then (true, ⟨S.chain ++ [b], w, S.total + (b.difficulty : Int)⟩, h')
      else (false, S, h')
    else (false, S, h)
  else (false, S, h)

/-- chain.py lines 112-133 at heap level. -/
def undoLastBlockH (S : HState) (h : Heap) : Bool × HState × Heap :=
  match S.chain.getLast? with
  | none => (false, S, h)
  | some removed_block =>
    let (undone, h') := getChangesForUndoH removed_block S.users h
    (true, ⟨S.chain.dropLast, undone, S.total - (removed_block.difficulty : Int)⟩, h')

/-- The undo loop of verify_reorg at heap level (chain.py lines 161-169);
fuel as in undoAboveFuel. -/
def undoAboveH (split_height : Nat) : Nat → HState → Heap → HState × Heap
  | 0, S, h => (S, h)
  | fuel + 1, S, h =>
    match S.chain.getLast? with
    | none => (S, h)
    | some tip =>
      if split_height ≤ tip.height then
        let (_, S', h') := undoLastBlockH S h
        undoAboveH split_height fuel S' h'
      else (S, h)

/-- The replay loop of verify_reorg at heap level (chain.py lines 172-173). -/
def applyChainH (c : Crypto) : List Block → HState → Heap → Option HState × Heap
  | [], S, h => (some S, h)
  | b :: bs, S, h =>
    match verifyAndApplyBlockH c S h b with
    | (true, S', h') => applyChainH c bs S' h'
    | (false, _, h') => (none, h')

/-- chain.py lines 140-181: verify_reorg at heap level.  The chain list is
deep-copied (blocks are immutable, so a value copy) and the user map is
deep-copied into fresh objects; every later mutation targets the working
copy.  new_branch[0] on an empty branch raises IndexError before anything is
copied.  A `none` result is a raise; the heap is returned so that theorems
can state what the caller still observes through old_state. -/
def verifyReorgH (c : Crypto) (old_state : HState) (h : Heap) (new_branch : List Block) :
    Option HState × Heap :=
  match new_branch with
  | [] => (none, h)
  | b0 :: _ =>
    let split_height := b0.height
    let (start_states, h0) := deepcopyDict old_state.users h
    let start : HState := ⟨old_state.chain, start_states, old_state.total⟩
    let (rewound, h1) := undoAboveH split_height start.chain.length start h0
    match applyChainH c new_branch rewound h1 with
    | (none, h2) => (none, h2)
    | (some new_state, h2) =>
      if old_state.total < new_state.total then (some new_state, h2)
      else (none, h2)

/-!  Shared concrete objects used by witnesses. -/

def zeros32 : Bytes := List.replicate 32 0

def addrA : Bytes := List.replicate 20 1

def addrB : Bytes := List.replicate 20 2

/-- A concrete crypto bundle for witnesses: every SHA-1 is addrA, every
SHA-256 is the zero digest, every signature verifies.  The embedded code is
parametric in the bundle, so any instance is a legitimate test point. -/
def cryptoT : Crypto := ⟨fun _ => addrA, fun _ => zeros32, fun _ _ _ => true⟩

def emptyMap : UserMap := fun _ => defaultUserState

/-- A block that passes every header check of cryptoT over the empty chain:
height 0, previous all-zero, difficulty 1000 (the bootstrap constant),
block_id equal to the cryptoT digest, no transactions. -/
def genesisB : Block := ⟨zeros32, 0, addrA, [], 0, 1000, zeros32, 0⟩

def S0 : BlockchainState := ⟨[], emptyMap, 0⟩

/-!  C2: the proof-of-work admissibility test. -/

lemma log2fuel_two_pow : ∀ (m fuel : Nat), m ≤ fuel → log2fuel fuel (2 ^ m) = m := by
  intro m
  induction m with
  | zero =>
    intro fuel _
    cases fuel with
    | zero => rfl
    | succ f => simp [log2fuel]
  | succ m ih =>
    intro fuel hf
    obtain ⟨f, rfl⟩ : ∃ f, fuel = f + 1 := ⟨fuel - 1, by omega⟩
    have h2 : ¬ (2 ^ (m + 1) ≤ 1) := by
      have : 2 ^ 1 ≤ 2 ^ (m + 1) := Nat.pow_le_pow_right (by norm_num) (by omega)
      omega
    have hdiv : 2 ^ (m + 1) / 2 = 2 ^ m := by
      rw [pow_succ, Nat.mul_div_cancel _ (by norm_num)]
    simp only [log2fuel, if_neg h2, hdiv, ih f (by omega)]

/-- The float target of a power-of-two difficulty is exact: the rounding step
of pyFloatDivPow256 leaves the quotient untouched. -/
lemma pyFloatDivPow256_two_pow (k : Nat) (hk : k < 128) :
    pyFloatDivPow256 (2 ^ k) = 2 ^ 256 / 2 ^ k := by
  have hq : (2 : Nat) ^ 256 / 2 ^ k = 2 ^ (256 - k) := Nat.pow_div (by omega) (by norm_num)
  have hlog : log2floor (2 ^ (256 - k)) = 256 - k :=
    log2fuel_two_pow (256 - k) 300 (by omega)
  have he : 256 - k - 52 = 204 - k := by omega
  have hD : (2 : Nat) ^ k * 2 ^ (204 - k) = 2 ^ 204 := by
    rw [← pow_add]; congr 1; omega
  have ha : (2 : Nat) ^ 256 / 2 ^ 204 = 2 ^ 52 := Nat.pow_div (by omega) (by norm_num)
  have hsplit : (2 : Nat) ^ 256 = 2 ^ 52 * 2 ^ 204 := by rw [← pow_add]
  have hr : (2 : Nat) ^ 256 % 2 ^ 204 = 0 := by rw [hsplit, Nat.mul_mod_left]
  have hres : (2 : Nat) ^ 52 * 2 ^ (204 - k) = 2 ^ (256 - k) := by
    rw [← pow_add]; congr 1; omega
  unfold pyFloatDivPow256
  simp only [hq, hlog, he, hD, ha, hr, mul_zero]
  rw [if_pos (by positivity), hres]

/-- Big-endian fixed-width encoding of a natural number, used to build a
concrete 32-byte digest for the counterexample; inverse of intBE on values
below 256^width. -/
def natToBE (width n : Nat) : Bytes :=
  (List.range width).map (fun i => n / 256 ^ (width - 1 - i) % 256)

/-- The integer value of the IEEE-754 double (2**256)/3, plus one: a digest
value the integer-floor rule admits at difficulty 3 but the code rejects. -/
def c2digit : Nat := 6004799503160661 * 2 ^ 202 + 1

set_option maxRecDepth 100000 in
/-- C2 counterexample: at difficulty 3 the code's proof-of-work test (Python
float division, blocks.py line 179) disagrees with the claimed integer floor
rule: the 32-byte digest with big-endian value (2**256)/3 rounded to double
plus one is at most the floor of 2^256/3, yet powAccept rejects it. -/
theorem pow_target_not_integer_floor :
    ¬ ((powAccept (natToBE 32 c2digit) 3 = true) ↔
        intBE (natToBE 32 c2digit) ≤ 2 ^ 256 / 3) := by
  decide

/-- C2 (amended): in block verification and in the mining search the
proof-of-work admissibility test accepts exactly when the 32-byte digest,
interpreted as a big-endian unsigned integer, is at most the IEEE-754
binary64 value of 2^256/difficulty (Python float true division, rounded to
nearest, ties to even) — not the integer floor; verification and mining use
the same threshold, and the two rules coincide whenever the difficulty is a
power of two. -/
theorem pow_target_float_division (x : Bytes) (d : Nat) (h1 : 1 ≤ d) (h2 : d < 2 ^ 128) :
    (powAccept x d = mineAccept x d) ∧
    (powAccept x d = true ↔ intBE x ≤ pyFloatDivPow256 d) ∧
    (∀ k : Nat, d = 2 ^ k → pyFloatDivPow256 d = 2 ^ 256 / d) := by
  refine ⟨rfl, by simp [powAccept], ?_⟩
  rintro k rfl
  have hk : k < 128 := by
    by_contra hk
    exact absurd (Nat.pow_le_pow_right (by norm_num) (by omega)) (by omega : ¬ 2 ^ 128 ≤ 2 ^ k)
  exact pyFloatDivPow256_two_pow k hk

/-- Witness for C2 at digest [7] and difficulty 1024 = 2^10. -/
theorem pow_target_float_division_witness :
    (1 ≤ 1024 ∧ 1024 < 2 ^ 128) ∧
    (powAccept [7] 1024 = mineAccept [7] 1024) ∧
    (powAccept [7] 1024 = true ↔ intBE [7] ≤ pyFloatDivPow256 1024) ∧
    pyFloatDivPow256 1024 = 2 ^ 256 / 1024 := by
  have h := pow_target_float_division [7] 1024 (by norm_num) (by norm_num)
  exact ⟨⟨by norm_num, by norm_num⟩, h.1, h.2.1, h.2.2 10 (by norm_num)⟩

/-!  C6: difficulty retargeting. -/

lemma foldl_add_difficulty (l : List Block) (a : Int) :
    l.foldl (fun acc b => acc + (b.difficulty : Int)) a =
      a + (l.map (fun b => (b.difficulty : Int))).sum := by
  induction l generalizing a with
  | nil => simp
  | cons x xs ih => simp [ih, add_assoc]

/-- An 11-block chain, all at timestamp 0 with difficulty 1000, for the
concrete scenario of C6. -/
def chain11 : List Block :=
  List.replicate 11 ⟨zeros32, 0, addrA, [], 0, 1000, zeros32, 0⟩

/-- C6: calculate_difficulty returns 1000 for chains of at most 10 blocks;
otherwise it returns (sum of the last 10 difficulties // dt) * 120 with
dt the tip timestamp minus the timestamp of the block 11 from the end,
replaced by 1 when zero (// is Python floor division, Int.fdiv); and on 11
blocks all at timestamp 0 with difficulty 1000 it returns 1200000. -/
theorem calculate_difficulty_spec :
    (∀ S : BlockchainState, S.longest_chain.length ≤ 10 →
      S.calculate_difficulty = 1000) ∧
    (∀ S : BlockchainState, 10 < S.longest_chain.length →
      S.calculate_difficulty =
        Int.fdiv
          ((((S.longest_chain.drop (S.longest_chain.length - 10)).map
              (fun b => (b.difficulty : Int))).sum))
          (if ((S.longest_chain.getD (S.longest_chain.length - 1) dummyBlock).timestamp : Int)
              - ((S.longest_chain.getD (S.longest_chain.length - 11) dummyBlock).timestamp : Int)
              = 0 then 1
           else ((S.longest_chain.getD (S.longest_chain.length - 1) dummyBlock).timestamp : Int)
              - ((S.longest_chain.getD (S.longest_chain.length - 11) dummyBlock).timestamp : Int))
          * 120) ∧
    (BlockchainState.mk chain11 emptyMap 0).calculate_difficulty = 1200000 := by
  refine ⟨?_, ?_, ?_⟩
  · intro S h
    simp [BlockchainState.calculate_difficulty, calcDifficulty, h]
  · intro S h
    unfold BlockchainState.calculate_difficulty calcDifficulty
    rw [if_neg (by omega : ¬ S.longest_chain.length ≤ 10)]
    simp [foldl_add_difficulty]
  · decide

/-!  C5: reorg is accepted only under strictly greater total difficulty. -/

/-- C5: verify_reorg returns a state only when the total difficulty of the
replayed chain strictly exceeds the total difficulty of the old state; in
every other case (including every failure during undo or replay) it fails. -/
theorem reorg_requires_strict_difficulty (c : Crypto) (old_state : BlockchainState)
    (new_branch : List Block) (new_state : BlockchainState)
    (h : verify_reorg c old_state new_branch = some new_state) :
    old_state.total_difficulty < new_state.total_difficulty := by
  unfold verify_reorg at h
  cases new_branch with
  | nil => exact absurd h (by simp)
  | cons b0 bs =>
    simp only at h
    split at h
    · exact absurd h (by simp)
    · split at h
      · rename_i hlt
        cases h
        exact hlt
      · exact absurd h (by simp)

set_option maxRecDepth 100000 in
/-- Witness for C5: a successful one-block reorg from the empty state. -/
theorem reorg_requires_strict_difficulty_witness :
    (verify_reorg cryptoT S0 [genesisB]).isSome = true ∧
    S0.total_difficulty <
      ((verify_reorg cryptoT S0 [genesisB]).getD S0).total_difficulty := by
  cases e : verify_reorg cryptoT S0 [genesisB] with
  | none =>
    have habs : (verify_reorg cryptoT S0 [genesisB]).isSome = true := by decide
    rw [e] at habs
    exact absurd habs (by simp)
  | some W =>
    refine ⟨rfl, ?_⟩
    simpa using reorg_requires_strict_difficulty cryptoT S0 [genesisB] W e

/-!  C3: apply-then-undo round trip.  Every mutation of the transaction loops
is an additive single-key update; `adj` is that normal form, and the round
trip follows from commutation and cancellation of such updates. -/

lemma earn_false (u : UserState) (amt : Int) : u.earn amt false = u.balance + amt := rfl

lemma earn_true (u : UserState) (amt : Int) : u.earn amt true = u.balance - amt := rfl

lemma spend_false (u : UserState) (amt : Int) :
    u.spend amt false = (u.balance - amt, u.nonce + 1) := rfl

lemma spend_true (u : UserState) (amt : Int) :
    u.spend amt true = (u.balance + amt, u.nonce - 1) := rfl

lemma userStateExt (u v : UserState) (hb : u.balance = v.balance)
    (hn : u.nonce = v.nonce) : u = v := by
  cases u; cases v; cases hb; cases hn; rfl

/-- Additive single-key update: add db to the balance and dn to the nonce of
the entry at k. -/
def adj (k : Bytes) (db dn : Int) (m : UserMap) : UserMap :=
  fun a => if a = k then ⟨(m k).balance + db, (m k).nonce + dn⟩ else m a

lemma adj_comm (k : Bytes) (db dn : Int) (k' : Bytes) (db' dn' : Int) (m : UserMap) :
    adj k db dn (adj k' db' dn' m) = adj k' db' dn' (adj k db dn m) := by
  funext a
  by_cases hkk : k = k'
  · subst hkk
    by_cases hak : a = k <;>
      · refine userStateExt _ _ ?_ ?_ <;> simp [adj, hak] <;> try ring
  · by_cases hak : a = k <;> by_cases hak' : a = k' <;>
      simp [adj, hak, hak', hkk, Ne.symm hkk]

lemma adj_cancel (k : Bytes) (db dn : Int) (m : UserMap) :
    adj k (-db) (-dn) (adj k db dn m) = m := by
  funext a
  by_cases hak : a = k
  · subst hak
    refine userStateExt _ _ ?_ ?_ <;> simp [adj]
  · simp [adj, hak]

lemma mapSet_earnF (m : UserMap) (k : Bytes) (amt : Int) :
    mapSet m k ⟨(m k).earn amt false, (m k).nonce⟩ = adj k amt 0 m := by
  funext a
  by_cases hak : a = k <;> simp [mapSet, adj, earn_false, hak]

lemma mapSet_earnT (m : UserMap) (k : Bytes) (amt : Int) :
    mapSet m k ⟨(m k).earn amt true, (m k).nonce⟩ = adj k (-amt) (-0) m := by
  funext a
  by_cases hak : a = k <;>
    simp [mapSet, adj, earn_true, hak, sub_eq_add_neg]

lemma applyTx_eq_adj (miner : Bytes) (m : UserMap) (t : Transaction) :
    applyTx miner m t =
      adj t.recipient_hash (t.amount - t.fee) 0
        (adj t.sender_hash (-t.amount) 1 (adj miner t.fee 0 m)) := by
  funext a
  simp only [applyTx, mapSet, adj, earn_false, earn_true, spend_false, spend_true]
  split_ifs <;> first
    | rfl
    | (refine userStateExt _ _ ?_ ?_ <;> simp_all <;> ring)

lemma undoTx_eq_adj (miner : Bytes) (m : UserMap) (t : Transaction) :
    undoTx miner m t =
      adj t.recipient_hash (-(t.amount - t.fee)) (-0)
        (adj t.sender_hash (- -t.amount) (-1) (adj miner (-t.fee) (-0) m)) := by
  funext a
  simp only [undoTx, mapSet, adj, earn_false, earn_true, spend_false, spend_true]
  split_ifs <;> first
    | rfl
    | (refine userStateExt _ _ ?_ ?_ <;> simp_all <;> ring)

lemma undoTx_applyTx (miner : Bytes) (t : Transaction) (m : UserMap) :
    undoTx miner (applyTx miner m t) t = m := by
  rw [undoTx_eq_adj, applyTx_eq_adj]
  rw [adj_comm miner (-t.fee) (-0) t.recipient_hash (t.amount - t.fee) 0]
  rw [adj_comm miner (-t.fee) (-0) t.sender_hash (-t.amount) 1]
  rw [adj_cancel miner t.fee 0]
  rw [adj_comm t.sender_hash (- -t.amount) (-1) t.recipient_hash (t.amount - t.fee) 0]
  rw [adj_cancel t.sender_hash (-t.amount) 1]
  rw [adj_cancel t.recipient_hash (t.amount - t.fee) 0]

/-- The transaction loop of update_states with the verification gates
erased; applyTxs agrees with it whenever it succeeds. -/
def applyTxsU (miner : Bytes) (ts : List Transaction) (m : UserMap) : UserMap :=
  ts.foldl (applyTx miner) m

lemma applyTxs_eq_applyTxsU (c : Crypto) (miner : Bytes) :
    ∀ (ts : List Transaction) (m m' : UserMap),
      applyTxs c miner ts m = some m' → m' = applyTxsU miner ts m := by
  intro ts
  induction ts with
  | nil => intro m m' h; cases h; rfl
  | cons t ts ih =>
    intro m m' h
    unfold applyTxs at h
    split at h
    · exact ih _ _ h
    · exact absurd h (by simp)

lemma adj_applyTx_comm (k : Bytes) (db dn : Int) (miner : Bytes) (t : Transaction)
    (m : UserMap) :
    adj k db dn (applyTx miner m t) = applyTx miner (adj k db dn m) t := by
  rw [applyTx_eq_adj, applyTx_eq_adj]
  rw [adj_comm k db dn t.recipient_hash (t.amount - t.fee) 0]
  rw [adj_comm k db dn t.sender_hash (-t.amount) 1]
  rw [adj_comm k db dn miner t.fee 0]

lemma adj_applyTxsU_comm (k : Bytes) (db dn : Int) (miner : Bytes) :
    ∀ (ts : List Transaction) (m : UserMap),
      adj k db dn (applyTxsU miner ts m) = applyTxsU miner ts (adj k db dn m) := by
  intro ts
  induction ts with
  | nil => intro m; rfl
  | cons t ts ih =>
    intro m
    simp only [applyTxsU, List.foldl_cons]
    rw [show ts.foldl (applyTx miner) (applyTx miner m t) = applyTxsU miner ts (applyTx miner m t) from rfl]
    rw [ih, adj_applyTx_comm]
    rfl

lemma undoTx_applyTxsU_comm (miner : Bytes) (t : Transaction) :
    ∀ (ts : List Transaction) (m : UserMap),
      undoTx miner (applyTxsU miner ts m) t = applyTxsU miner ts (undoTx miner m t) := by
  intro ts m
  simp only [undoTx_eq_adj, adj_applyTxsU_comm]

lemma roundtrip_txs (miner : Bytes) :
    ∀ (ts : List Transaction) (m : UserMap),
      ts.foldl (undoTx miner) (applyTxsU miner ts m) = m := by
  intro ts
  induction ts with
  | nil => intro m; rfl
  | cons t ts ih =>
    intro m
    simp only [applyTxsU, List.foldl_cons]
    rw [show ts.foldl (applyTx miner) (applyTx miner m t) = applyTxsU miner ts (applyTx miner m t) from rfl]
    rw [undoTx_applyTxsU_comm, undoTx_applyTx]
    exact ih m

/-- Undoing a block on the map produced by a successful update restores the
original map exactly. -/
lemma update_states_roundtrip (c : Crypto) (b : Block) (P m' : UserMap)
    (h : b.update_states c P = some m') : b.get_changes_for_undo m' = P := by
  unfold Block.update_states at h
  rw [mapSet_earnF] at h
  have hm' := applyTxs_eq_applyTxsU c b.miner b.transactions _ _ h
  unfold Block.get_changes_for_undo
  rw [mapSet_earnT, hm']
  rw [adj_applyTxsU_comm, adj_cancel b.miner 10000 0]
  exact roundtrip_txs b.miner b.transactions P

/-- C3: for every chain state S and block B accepted by
verify_and_apply_block, an immediate undo_last_block succeeds and returns a
state with the same block sequence, the same total difficulty, and a user
map agreeing with the one of S on every address. -/
theorem apply_then_undo_roundtrip (c : Crypto) (S : BlockchainState) (B : Block)
    (S' : BlockchainState) (h : S.verify_and_apply_block c B = some S') :
    ∃ S'' : BlockchainState, S'.undo_last_block = some S'' ∧
      S''.longest_chain = S.longest_chain ∧
      S''.total_difficulty = S.total_difficulty ∧
      ∀ a : Bytes, S''.user_states a = S.user_states a := by
  unfold BlockchainState.verify_and_apply_block at h
  split at h
  · split at h
    · exact absurd h (by simp)
    · rename_i m' hm'
      cases h
      have hup : B.update_states c S.user_states = some m' := by
        unfold Block.verify_and_get_changes at hm'
        split at hm'
        · exact hm'
        · exact absurd hm' (by simp)
      refine ⟨⟨S.longest_chain, B.get_changes_for_undo m',
        S.total_difficulty + (B.difficulty : Int) - (B.difficulty : Int)⟩, ?_, rfl, by ring, ?_⟩
      · unfold BlockchainState.undo_last_block
        simp only [List.getLast?_concat, List.dropLast_concat]
      · intro a
        rw [update_states_roundtrip c B S.user_states m' hup]
  · exact absurd h (by simp)

set_option maxRecDepth 100000 in
/-- Witness for C3: applying the concrete genesis block to the empty state
and undoing restores chain, total difficulty and the map (sampled at
addrA). -/
theorem apply_then_undo_roundtrip_witness :
    (S0.verify_and_apply_block cryptoT genesisB).isSome = true ∧
    (((S0.verify_and_apply_block cryptoT genesisB).getD S0).undo_last_block).isSome = true ∧
    ((((S0.verify_and_apply_block cryptoT genesisB).getD S0).undo_last_block).getD S0).longest_chain
      = S0.longest_chain ∧
    ((((S0.verify_and_apply_block cryptoT genesisB).getD S0).undo_last_block).getD S0).total_difficulty
      = S0.total_difficulty ∧
    ((((S0.verify_and_apply_block cryptoT genesisB).getD S0).undo_last_block).getD S0).user_states addrA
      = S0.user_states addrA := by
  cases e : S0.verify_and_apply_block cryptoT genesisB with
  | none =>
    have habs : (S0.verify_and_apply_block cryptoT genesisB).isSome = true := by decide
    rw [e] at habs
    exact absurd habs (by simp)
  | some S' =>
    obtain ⟨S'', h1, h2, h3, h4⟩ := apply_then_undo_roundtrip cryptoT S0 genesisB S' e
    simp only [Option.getD_some, h1]
    exact ⟨rfl, rfl, h2, h3, h4 addrA⟩

/-!  C7: the exact order of the per-block state transition, stated as a
refinement: a second definition written from the claim wording is proved
equal to update_states, and the miner-as-sender consequence is derived. -/

/-- Modelled from the claim wording (not from the source), for comparison
with update_states: credit the miner 10000; then for each transaction in
list order, verify it against the sender's current balance and nonce, credit
the miner the fee, debit the sender the amount and increment the sender's
nonce by 1, and credit the recipient amount - fee. -/
def specTxStep (miner : Bytes) (t : Transaction) (m : UserMap) : UserMap :=
  adj t.recipient_hash (t.amount - t.fee) 0
    (adj t.sender_hash (-t.amount) 1 (adj miner t.fee 0 m))

def specGo (c : Crypto) (miner : Bytes) : List Transaction → UserMap → Option UserMap
  | [], m => some m
  | t :: ts, m =>
    if t.verify c (m t.sender_hash).balance (m t.sender_hash).nonce then
      specGo c miner ts (specTxStep miner t m)
    else none

def specApplyBlock (c : Crypto) (b : Block) (P : UserMap) : Option UserMap :=
  specGo c b.miner b.transactions (adj b.miner 10000 0 P)

lemma applyTxs_eq_specGo (c : Crypto) (miner : Bytes) :
    ∀ (ts : List Transaction) (m : UserMap),
      applyTxs c miner ts m = specGo c miner ts m := by
  intro ts
  induction ts with
  | nil => intro m; rfl
  | cons t ts ih =>
    intro m
    unfold applyTxs specGo
    rw [applyTx_eq_adj]
    by_cases hv : t.verify c (m t.sender_hash).balance (m t.sender_hash).nonce = true
    · rw [if_pos hv, if_pos hv, ih]
      rfl
    · rw [if_neg hv, if_neg hv]

/-- C7: update_states performs exactly the claimed sequence — reward first,
then per transaction (in order): verify against the current sender view,
fee to the miner, debit and nonce bump for the sender, credit to the
recipient — and consequently a transaction whose sender is the miner is
debited from a balance already containing that fee. -/
theorem update_states_order_spec :
    (∀ (c : Crypto) (b : Block) (P : UserMap),
      b.update_states c P = specApplyBlock c b P) ∧
    (∀ (miner : Bytes) (m : UserMap) (t : Transaction),
      t.sender_hash = miner → t.recipient_hash ≠ t.sender_hash →
        ((applyTx miner m t) t.sender_hash).balance
          = (m t.sender_hash).balance + t.fee - t.amount) := by
  constructor
  · intro c b P
    unfold Block.update_states specApplyBlock
    rw [mapSet_earnF, applyTxs_eq_specGo]
  · intro miner m t hsm hrs
    subst hsm
    rw [applyTx_eq_adj]
    simp [adj, Ne.symm hrs]
    ring

/-- A concrete transaction whose sender is the miner, for the C7 witness. -/
def tx7 : Transaction := ⟨addrA, addrB, addrA, 30, 2, 0, zeros32, zeros32⟩

def m7 : UserMap := fun _ => ⟨100, -1⟩

/-- Witness for C7: the refinement at a concrete block and the miner-as-
sender consequence at a concrete transaction. -/
theorem update_states_order_spec_witness :
    genesisB.update_states cryptoT emptyMap = specApplyBlock cryptoT genesisB emptyMap ∧
    ((applyTx addrA m7 tx7) tx7.sender_hash).balance
      = (m7 tx7.sender_hash).balance + tx7.fee - tx7.amount :=
  ⟨update_states_order_spec.1 cryptoT genesisB emptyMap,
   update_states_order_spec.2 addrA m7 tx7 rfl (by decide)⟩

/-!  C9: a block changes the total balance by exactly the mining reward. -/

lemma sum_adj (s : Finset Bytes) (k : Bytes) (hk : k ∈ s) (db dn : Int) (m : UserMap) :
    Finset.sum s (fun a => ((adj k db dn m) a).balance)
      = Finset.sum s (fun a => (m a).balance) + db := by
  have hpt : ∀ a, ((adj k db dn m) a).balance
      = (m a).balance + (if a = k then db else 0) := by
    intro a
    by_cases hak : a = k <;> simp [adj, hak]
  calc Finset.sum s (fun a => ((adj k db dn m) a).balance)
      = Finset.sum s (fun a => (m a).balance + (if a = k then db else 0)) :=
        Finset.sum_congr rfl (fun a _ => hpt a)
    _ = Finset.sum s (fun a => (m a).balance)
        + Finset.sum s (fun a => if a = k then db else 0) := Finset.sum_add_distrib
    _ = Finset.sum s (fun a => (m a).balance) + db := by
        rw [Finset.sum_ite_eq' s k (fun _ => db), if_pos hk]

lemma sum_applyTx (s : Finset Bytes) (miner : Bytes) (t : Transaction) (m : UserMap)
    (hm : miner ∈ s) (hs : t.sender_hash ∈ s) (hr : t.recipient_hash ∈ s) :
    Finset.sum s (fun a => ((applyTx miner m t) a).balance)
      = Finset.sum s (fun a => (m a).balance) := by
  rw [applyTx_eq_adj, sum_adj s _ hr, sum_adj s _ hs, sum_adj s _ hm]
  ring

lemma sum_applyTxs (c : Crypto) (s : Finset Bytes) (miner : Bytes) (hm : miner ∈ s) :
    ∀ (ts : List Transaction) (m m' : UserMap),
      (∀ t ∈ ts, t.sender_hash ∈ s ∧ t.recipient_hash ∈ s) →
      applyTxs c miner ts m = some m' →
      Finset.sum s (fun a => (m' a).balance) = Finset.sum s (fun a => (m a).balance) := by
  intro ts
  induction ts with
  | nil =>
    intro m m' _ h
    cases h
    rfl
  | cons t ts ih =>
    intro m m' hmem h
    unfold applyTxs at h
    split at h
    · have ht := hmem t (by simp)
      rw [ih _ _ (fun u hu => hmem u (by simp [hu])) h]
      exact sum_applyTx s miner t m hm ht.1 ht.2
    · exact absurd h (by simp)

/-- C9: for every block accepted against any pre-state, the sum of the
balances over any address set containing the miner and all transaction
participants grows by exactly the mining reward 10000; each transaction
nets to zero. -/
theorem block_apply_sum_conservation (c : Crypto) (b : Block) (P P' : UserMap)
    (s : Finset Bytes) (h : b.update_states c P = some P') (hm : b.miner ∈ s)
    (ht : ∀ t ∈ b.transactions, t.sender_hash ∈ s ∧ t.recipient_hash ∈ s) :
    Finset.sum s (fun a => (P' a).balance)
      = Finset.sum s (fun a => (P a).balance) + 10000 := by
  unfold Block.update_states at h
  rw [mapSet_earnF] at h
  rw [sum_applyTxs c s b.miner hm b.transactions _ P' ht h]
  exact sum_adj s b.miner hm 10000 0 P

/-- A concrete one-transaction block for the C9 witness: Alice (addrA) mines
and also sends 500 with fee 25 to Bob (addrB). -/
def tx9 : Transaction := ⟨addrA, addrB, addrA, 500, 25, 0, zeros32, zeros32⟩

def b9 : Block := ⟨zeros32, 0, addrA, [tx9], 0, 1000, zeros32, 0⟩

set_option maxRecDepth 100000 in
/-- Witness for C9: applying b9 to the empty pre-state over {addrA, addrB}
adds exactly 10000 to the total balance. -/
theorem block_apply_sum_conservation_witness :
    (b9.update_states cryptoT emptyMap).isSome = true ∧
    Finset.sum {addrA, addrB}
        (fun a => (((b9.update_states cryptoT emptyMap).getD emptyMap) a).balance)
      = Finset.sum {addrA, addrB} (fun a => ((emptyMap a).balance)) + 10000 := by
  cases e : b9.update_states cryptoT emptyMap with
  | none =>
    have habs : (b9.update_states cryptoT emptyMap).isSome = true := by decide
    rw [e] at habs
    exact absurd habs (by simp)
  | some P' =>
    refine ⟨rfl, ?_⟩
    simpa using block_apply_sum_conservation cryptoT b9 emptyMap P' {addrA, addrB} e
      (by decide) (by decide)

/-!  C8: the transaction validity predicate.  The bound hypotheses delimit
the range on which the total little-endian encoders agree with Python
int.to_bytes (outside it Python raises OverflowError in the txid
recomputation instead of returning False; the spec types these fields as
unsigned 64-bit). -/

/-- C8: Transaction.verify succeeds exactly when: both hashes are 20 bytes;
the sender hash is the SHA-1 of the DER public key; 0 < amount <= balance;
0 <= fee <= amount; nonce = previous + 1; the txid matches the canonical
SHA-256 recomputation; and the ECDSA signature over
SHA-256(recipient_hash, amount_LE8, fee_LE8, nonce_LE8) verifies.  Any
failure raises instead of returning (false = raise in the embedding). -/
theorem transaction_verify_iff (c : Crypto) (t : Transaction)
    (sender_balance sender_previous_nonce : Int)
    (hamt : t.amount < 2 ^ 64) (hnon : t.nonce < 2 ^ 64)
    (hprev : -1 ≤ sender_previous_nonce) :
    t.verify c sender_balance sender_previous_nonce = true ↔
      (t.sender_hash.length = 20 ∧ t.recipient_hash.length = 20 ∧
       t.sender_hash = c.sha1 t.sender_public_key ∧
       0 < t.amount ∧ t.amount ≤ sender_balance ∧
       0 ≤ t.fee ∧ t.fee ≤ t.amount ∧
       t.nonce = sender_previous_nonce + 1 ∧
       t.txid = c.sha256 (t.sender_hash ++ t.recipient_hash ++ t.sender_public_key ++
         le8 t.amount ++ le8 t.fee ++ le8 t.nonce ++ t.signature) ∧
       c.ecdsaVerify t.sender_public_key t.signature
         (c.sha256 (t.recipient_hash ++ le8 t.amount ++ le8 t.fee ++ le8 t.nonce)) = true) := by
  unfold Transaction.verify generate_address
  simp only [Bool.and_eq_true, decide_eq_true_eq, Int.emod_one]
  tauto

/-- Witness for C8: the concrete transaction tx9 is accepted at balance
10000 and previous nonce -1, via the right-to-left direction. -/
theorem transaction_verify_iff_witness :
    tx9.verify cryptoT 10000 (-1) = true :=
  (transaction_verify_iff cryptoT tx9 10000 (-1) (by decide) (by decide)
    (by norm_num)).mpr (by decide)

/-!  Heap frame lemmas, for the aliasing and isolation claims: every write
performed after a deep copy targets references allocated at or after the
copy, so the objects the caller holds (references below the allocation mark)
never change. -/

/-- Working invariant at mark n: the heap has allocated past n, and every
reference the working dict holds was allocated in [n, next). -/
structure WInv (n : Nat) (d : PyDict) (h : Heap) : Prop where
  hn : n ≤ h.next
  ge : ∀ r ∈ d.refs, n ≤ r
  lt : ∀ r ∈ d.refs, r < h.next

/-- The heap evolved by allocation and writes at or above mark n only. -/
structure FrameBelow (n : Nat) (h h' : Heap) : Prop where
  mono : h.next ≤ h'.next
  frame : ∀ r, r < n → h'.val r = h.val r

lemma frameBelow_rfl (n : Nat) (h : Heap) : FrameBelow n h h :=
  ⟨le_refl _, fun _ _ => rfl⟩

lemma frameBelow_trans {n : Nat} {h1 h2 h3 : Heap}
    (a : FrameBelow n h1 h2) (b : FrameBelow n h2 h3) : FrameBelow n h1 h3 :=
  ⟨a.mono.trans b.mono, fun r hr => (b.frame r hr).trans (a.frame r hr)⟩

lemma lookup_mem_refs (d : PyDict) (k : Bytes) (r : Nat)
    (h : d.lookup k = some r) : r ∈ d.refs := by
  unfold PyDict.lookup at h
  cases e : d.entries.find? (fun e => decide (e.1 = k)) with
  | none => rw [e] at h; exact absurd h (by simp)
  | some p =>
    rw [e] at h
    cases h
    exact List.mem_map_of_mem _ (List.mem_of_find?_eq_some e)

lemma getOrCreate_spec (n : Nat) (d : PyDict) (h : Heap) (k : Bytes) (inv : WInv n d h) :
    WInv n (d.getOrCreate h k).2.1 (d.getOrCreate h k).2.2 ∧
    FrameBelow n h (d.getOrCreate h k).2.2 ∧
    n ≤ (d.getOrCreate h k).1 ∧
    (d.getOrCreate h k).1 < (d.getOrCreate h k).2.2.next := by
  unfold PyDict.getOrCreate
  cases e : d.lookup k with
  | some r =>
    simp only [e]
    exact ⟨inv, frameBelow_rfl n h, inv.ge r (lookup_mem_refs d k r e),
      inv.lt r (lookup_mem_refs d k r e)⟩
  | none =>
    simp only [e, halloc]
    have hmem : ∀ r, r ∈ (PyDict.mk (d.entries ++ [(k, h.next)])).refs →
        r ∈ d.refs ∨ r = h.next := by
      intro r hr
      simp only [PyDict.refs, List.map_append, List.mem_append] at hr
      rcases hr with hr | hr
      · exact Or.inl hr
      · simp at hr
        exact Or.inr hr
    refine ⟨⟨inv.hn.trans (Nat.le_succ _), ?_, ?_⟩, ⟨Nat.le_succ _, ?_⟩, inv.hn, by simp⟩
    · intro r hr
      rcases hmem r hr with hr | rfl
      · exact inv.ge r hr
      · exact inv.hn
    · intro r hr
      rcases hmem r hr with hr | rfl
      · exact (inv.lt r hr).trans (Nat.lt_succ_self _)
      · exact Nat.lt_succ_self _
    · intro r hr
      have hn := inv.hn
      have : r ≠ h.next := by omega
      simp [this]

lemma hwrite_winv {n : Nat} {d : PyDict} {h : Heap} (inv : WInv n d h) (r : Nat)
    (u : UserState) : WInv n d (hwrite h r u) :=
  ⟨inv.hn, inv.ge, inv.lt⟩

lemma hwrite_frame (n : Nat) (h : Heap) (r : Nat) (u : UserState) (hr : n ≤ r) :
    FrameBelow n h (hwrite h r u) := by
  refine ⟨le_refl _, ?_⟩
  intro r' hr'
  have : r' ≠ r := by omega
  simp [hwrite, this]

lemma earnAtH_spec (n : Nat) (d : PyDict) (h : Heap) (k : Bytes) (amt : Int)
    (undo : Bool) (inv : WInv n d h) :
    WInv n (earnAtH d h k amt undo).1 (earnAtH d h k amt undo).2 ∧
    FrameBelow n h (earnAtH d h k amt undo).2 := by
  obtain ⟨inv', fb, hge, _⟩ := getOrCreate_spec n d h k inv
  rcases hx : d.getOrCreate h k with ⟨r, d', h'⟩
  rw [hx] at inv' fb hge
  unfold earnAtH
  rw [hx]
  exact ⟨hwrite_winv inv' r _, frameBelow_trans fb (hwrite_frame n h' r _ hge)⟩

lemma spendAtH_spec (n : Nat) (d : PyDict) (h : Heap) (k : Bytes) (amt : Int)
    (undo : Bool) (inv : WInv n d h) :
    WInv n (spendAtH d h k amt undo).1 (spendAtH d h k amt undo).2 ∧
    FrameBelow n h (spendAtH d h k amt undo).2 := by
  obtain ⟨inv', fb, hge, _⟩ := getOrCreate_spec n d h k inv
  rcases hx : d.getOrCreate h k with ⟨r, d', h'⟩
  rw [hx] at inv' fb hge
  unfold spendAtH
  rw [hx]
  exact ⟨hwrite_winv inv' r _, frameBelow_trans fb (hwrite_frame n h' r _ hge)⟩

lemma applyTxsH_spec (c : Crypto) (n : Nat) (miner : Bytes) :
    ∀ (ts : List Transaction) (d : PyDict) (h : Heap), WInv n d h →
      WInv n (applyTxsH c miner ts d h).2.1 (applyTxsH c miner ts d h).2.2 ∧
      FrameBelow n h (applyTxsH c miner ts d h).2.2 := by
  intro ts
  induction ts with
  | nil => intro d h inv; exact ⟨inv, frameBelow_rfl n h⟩
  | cons t ts ih =>
    intro d h inv
    obtain ⟨inv1, fb1, _, _⟩ := getOrCreate_spec n d h t.sender_hash inv
    rcases hx : d.getOrCreate h t.sender_hash with ⟨rs, d1, h1⟩
    rw [hx] at inv1 fb1
    simp only [applyTxsH, hx]
    by_cases hv : t.verify c ((h1.val rs).balance) ((h1.val rs).nonce) = true
    · rw [if_pos hv]
      obtain ⟨inv2, fb2⟩ := earnAtH_spec n d1 h1 miner t.fee false inv1
      rcases h2x : earnAtH d1 h1 miner t.fee false with ⟨d2, h2⟩
      rw [h2x] at inv2 fb2
      obtain ⟨inv3, fb3⟩ := spendAtH_spec n d2 h2 t.sender_hash t.amount false inv2
      rcases h3x : spendAtH d2 h2 t.sender_hash t.amount false with ⟨d3, h3⟩
      rw [h3x] at inv3 fb3
      obtain ⟨inv4, fb4⟩ := earnAtH_spec n d3 h3 t.recipient_hash (t.amount - t.fee) false inv3
      rcases h4x : earnAtH d3 h3 t.recipient_hash (t.amount - t.fee) false with ⟨d4, h4⟩
      rw [h4x] at inv4 fb4
      obtain ⟨inv5, fb5⟩ := ih d4 h4 inv4
      exact ⟨inv5, frameBelow_trans fb1 (frameBelow_trans fb2 (frameBelow_trans fb3
        (frameBelow_trans fb4 fb5)))⟩
    · rw [if_neg hv]
      exact ⟨inv1, fb1⟩

lemma updateStatesH_spec (c : Crypto) (n : Nat) (b : Block) (d : PyDict) (h : Heap)
    (inv : WInv n d h) :
    WInv n (updateStatesH c b d h).2.1 (updateStatesH c b d h).2.2 ∧
    FrameBelow n h (updateStatesH c b d h).2.2 := by
  obtain ⟨inv1, fb1⟩ := earnAtH_spec n ⟨d.entries⟩ h b.miner 10000 false
    ⟨inv.hn, inv.ge, inv.lt⟩
  rcases h1x : earnAtH ⟨d.entries⟩ h b.miner 10000 false with ⟨d1, h1⟩
  rw [h1x] at inv1 fb1
  obtain ⟨inv2, fb2⟩ := applyTxsH_spec c n b.miner b.transactions d1 h1 inv1
  simp only [updateStatesH, h1x]
  exact ⟨inv2, frameBelow_trans fb1 fb2⟩

lemma frameBelow_weaken {n m : Nat} {h h' : Heap} (hnm : n ≤ m)
    (fb : FrameBelow m h h') : FrameBelow n h h' :=
  ⟨fb.mono, fun r hr => fb.frame r (by omega)⟩

lemma winv_of_next_le {n : Nat} {d : PyDict} {h h' : Heap} (inv : WInv n d h)
    (mono : h.next ≤ h'.next) : WInv n d h' :=
  ⟨inv.hn.trans mono, inv.ge, fun r hr => (inv.lt r hr).trans_le mono⟩

lemma deepcopyEntries_cons (k : Bytes) (r : Nat) (es : List (Bytes × Nat)) (h : Heap) :
    deepcopyEntries ((k, r) :: es) h =
      ((k, h.next) ::
        (deepcopyEntries es ⟨h.next + 1, fun r' => if r' = h.next then h.val r else h.val r'⟩).1,
       (deepcopyEntries es ⟨h.next + 1, fun r' => if r' = h.next then h.val r else h.val r'⟩).2) :=
  rfl

lemma deepcopyEntries_spec :
    ∀ (es : List (Bytes × Nat)) (h : Heap),
      FrameBelow h.next h (deepcopyEntries es h).2 ∧
      ∀ p ∈ (deepcopyEntries es h).1,
        h.next ≤ p.2 ∧ p.2 < (deepcopyEntries es h).2.next := by
  intro es
  induction es with
  | nil =>
    intro h
    exact ⟨frameBelow_rfl _ _, by simp [deepcopyEntries]⟩
  | cons e es ih =>
    intro h
    obtain ⟨k, r⟩ := e
    rw [deepcopyEntries_cons]
    have ih1 := ih ⟨h.next + 1, fun r' => if r' = h.next then h.val r else h.val r'⟩
    refine ⟨⟨?_, ?_⟩, ?_⟩
    · exact (Nat.le_succ _).trans ih1.1.mono
    · intro r' hr'
      rw [ih1.1.frame r' (by exact Nat.lt_succ_of_lt hr')]
      have : r' ≠ h.next := by omega
      simp [this]
    · intro p hp
      rcases List.mem_cons.1 hp with rfl | hp
      · exact ⟨le_refl _, lt_of_lt_of_le (by exact Nat.lt_succ_self h.next) ih1.1.mono⟩
      · have := ih1.2 p hp
        exact ⟨(Nat.le_succ _).trans (by simpa using this.1), this.2⟩

lemma deepcopyDict_spec (n : Nat) (d : PyDict) (h : Heap) (hn : n ≤ h.next) :
    WInv n (deepcopyDict d h).1 (deepcopyDict d h).2 ∧
    FrameBelow n h (deepcopyDict d h).2 := by
  have hsp := deepcopyEntries_spec d.entries h
  refine ⟨⟨hn.trans hsp.1.mono, ?_, ?_⟩, frameBelow_weaken hn hsp.1⟩
  · intro r hr
    simp only [deepcopyDict, PyDict.refs, List.mem_map] at hr
    obtain ⟨p, hp, rfl⟩ := hr
    exact hn.trans (hsp.2 p hp).1
  · intro r hr
    simp only [deepcopyDict, PyDict.refs, List.mem_map] at hr
    obtain ⟨p, hp, rfl⟩ := hr
    exact (hsp.2 p hp).2

lemma undoTxsH_spec (n : Nat) (miner : Bytes) :
    ∀ (ts : List Transaction) (d : PyDict) (h : Heap), WInv n d h →
      WInv n (undoTxsH miner ts d h).1 (undoTxsH miner ts d h).2 ∧
      FrameBelow n h (undoTxsH miner ts d h).2 := by
  intro ts
  induction ts with
  | nil => intro d h inv; exact ⟨inv, frameBelow_rfl n h⟩
  | cons t ts ih =>
    intro d h inv
    obtain ⟨inv1, fb1⟩ := earnAtH_spec n d h miner t.fee true inv
    rcases h1x : earnAtH d h miner t.fee true with ⟨d1, h1⟩
    rw [h1x] at inv1 fb1
    obtain ⟨inv2, fb2⟩ := spendAtH_spec n d1 h1 t.sender_hash t.amount true inv1
    rcases h2x : spendAtH d1 h1 t.sender_hash t.amount true with ⟨d2, h2⟩
    rw [h2x] at inv2 fb2
    obtain ⟨inv3, fb3⟩ := earnAtH_spec n d2 h2 t.recipient_hash (t.amount - t.fee) true inv2
    rcases h3x : earnAtH d2 h2 t.recipient_hash (t.amount - t.fee) true with ⟨d3, h3⟩
    rw [h3x] at inv3 fb3
    obtain ⟨inv4, fb4⟩ := ih d3 h3 inv3
    simp only [undoTxsH, h1x, h2x, h3x]
    exact ⟨inv4, frameBelow_trans fb1 (frameBelow_trans fb2 (frameBelow_trans fb3 fb4))⟩

lemma getChangesForUndoH_spec (n : Nat) (b : Block) (d : PyDict) (h : Heap)
    (hn : n ≤ h.next) :
    WInv n (getChangesForUndoH b d h).1 (getChangesForUndoH b d h).2 ∧
    FrameBelow n h (getChangesForUndoH b d h).2 := by
  obtain ⟨inv1, fb1⟩ := deepcopyDict_spec n d h hn
  rcases h1x : deepcopyDict d h with ⟨d1, h1⟩
  rw [h1x] at inv1 fb1
  obtain ⟨inv2, fb2⟩ := earnAtH_spec n d1 h1 b.miner 10000 true inv1
  rcases h2x : earnAtH d1 h1 b.miner 10000 true with ⟨d2, h2⟩
  rw [h2x] at inv2 fb2
  obtain ⟨inv3, fb3⟩ := undoTxsH_spec n b.miner b.transactions d2 h2 inv2
  simp only [getChangesForUndoH, h1x, h2x]
  exact ⟨inv3, frameBelow_trans fb1 (frameBelow_trans fb2 fb3)⟩

lemma undoLastBlockH_spec (n : Nat) (S : HState) (h : Heap) (inv : WInv n S.users h) :
    WInv n (undoLastBlockH S h).2.1.users (undoLastBlockH S h).2.2 ∧
    FrameBelow n h (undoLastBlockH S h).2.2 := by
  unfold undoLastBlockH
  cases e : S.chain.getLast? with
  | none => exact ⟨inv, frameBelow_rfl n h⟩
  | some blk =>
    obtain ⟨inv1, fb1⟩ := getChangesForUndoH_spec n blk S.users h inv.hn
    rcases h1x : getChangesForUndoH blk S.users h with ⟨d1, h1⟩
    rw [h1x] at inv1 fb1
    simp only [h1x]
    exact ⟨inv1, fb1⟩

lemma verifyAndApplyBlockH_spec (c : Crypto) (n : Nat) (S : HState) (h : Heap) (b : Block)
    (inv : WInv n S.users h) :
    WInv n (verifyAndApplyBlockH c S h b).2.1.users (verifyAndApplyBlockH c S h b).2.2 ∧
    FrameBelow n h (verifyAndApplyBlockH c S h b).2.2 := by
  unfold verifyAndApplyBlockH
  by_cases hpre : appendPreOk S.chain b = true
  · rw [if_pos hpre]
    by_cases hhead : b.headerChecks c (calcDifficulty S.chain) = true
    · rw [if_pos hhead]
      obtain ⟨inv1, fb1⟩ := updateStatesH_spec c n b S.users h inv
      rcases h1x : updateStatesH c b S.users h with ⟨ok, w, h1⟩
      rw [h1x] at inv1 fb1
      cases ok with
      | true => exact ⟨inv1, fb1⟩
      | false => exact ⟨winv_of_next_le inv fb1.mono, fb1⟩
    · rw [if_neg hhead]
      exact ⟨inv, frameBelow_rfl n h⟩
  · rw [if_neg hpre]
    exact ⟨inv, frameBelow_rfl n h⟩

lemma undoAboveH_spec (split : Nat) :
    ∀ (fuel : Nat) (S : HState) (h : Heap) (n : Nat), WInv n S.users h →
      WInv n (undoAboveH split fuel S h).1.users (undoAboveH split fuel S h).2 ∧
      FrameBelow n h (undoAboveH split fuel S h).2 := by
  intro fuel
  induction fuel with
  | zero => intro S h n inv; exact ⟨inv, frameBelow_rfl n h⟩
  | succ fuel ih =>
    intro S h n inv
    cases e : S.chain.getLast? with
    | none =>
      simp only [undoAboveH, e]
      exact ⟨inv, frameBelow_rfl n h⟩
    | some tip =>
      by_cases hsp : split ≤ tip.height
      · obtain ⟨inv1, fb1⟩ := undoLastBlockH_spec n S h inv
        rcases h1x : undoLastBlockH S h with ⟨ok, S1, h1⟩
        rw [h1x] at inv1 fb1
        obtain ⟨inv2, fb2⟩ := ih S1 h1 n inv1
        simp only [undoAboveH, e, if_pos hsp, h1x]
        exact ⟨inv2, frameBelow_trans fb1 fb2⟩
      · simp only [undoAboveH, e, if_neg hsp]
        exact ⟨inv, frameBelow_rfl n h⟩

lemma applyChainH_spec (c : Crypto) :
    ∀ (bs : List Block) (S : HState) (h : Heap) (n : Nat), WInv n S.users h →
      FrameBelow n h (applyChainH c bs S h).2 ∧
      ∀ S', (applyChainH c bs S h).1 = some S' →
        WInv n S'.users (applyChainH c bs S h).2 := by
  intro bs
  induction bs with
  | nil =>
    intro S h n inv
    refine ⟨frameBelow_rfl n h, ?_⟩
    intro S' hS'
    cases hS'
    exact inv
  | cons b bs ih =>
    intro S h n inv
    obtain ⟨inv1, fb1⟩ := verifyAndApplyBlockH_spec c n S h b inv
    rcases h1x : verifyAndApplyBlockH c S h b with ⟨ok, S1, h1⟩
    rw [h1x] at inv1 fb1
    cases ok with
    | true =>
      obtain ⟨fb2, hsome⟩ := ih S1 h1 n inv1
      simp only [applyChainH, h1x]
      exact ⟨frameBelow_trans fb1 fb2, hsome⟩
    | false =>
      simp only [applyChainH, h1x]
      exact ⟨fb1, fun S' hS' => absurd hS' (by simp)⟩

/-!  C10: get_changes_for_undo never mutates its input map. -/

/-- C10: for every block and every well-formed user dict M (all references
allocated), get_changes_for_undoH leaves every UserState object reachable
from M unchanged: the undo computation works on a deep copy, and every write
targets references allocated at or after the copy.  (The dict value M itself
is a pure value here because the Python code never writes the input dict —
only the heap objects could be affected, and they are not.) -/
theorem get_changes_for_undo_frame (b : Block) (M : PyDict) (h : Heap)
    (wf : ∀ r ∈ M.refs, r < h.next) :
    ∀ r ∈ M.refs, ((getChangesForUndoH b M h).2).val r = h.val r := by
  intro r hr
  exact (getChangesForUndoH_spec h.next b M h (le_refl _)).2.frame r (wf r hr)

/-- A singleton caller dict whose only UserState object lives at reference 0
with balance 50, and the matching heap. -/
def dict1 : PyDict := ⟨[(addrA, 0)]⟩

def heap1 : Heap := ⟨1, fun r => if r = 0 then ⟨50, -1⟩ else defaultUserState⟩

def hs1 : HState := ⟨[], dict1, 0⟩

set_option maxRecDepth 100000 in
/-- Witness for C10: undoing the one-transaction block b9 over dict1 leaves
the caller object at reference 0 untouched. -/
theorem get_changes_for_undo_frame_witness :
    ((getChangesForUndoH b9 dict1 heap1).2).val 0 = heap1.val 0 :=
  get_changes_for_undo_frame b9 dict1 heap1 (by decide) 0 (by decide)

/-!  C4: verify_reorg isolates the old state. -/

/-- C4: if verify_reorg fails at any step, the old state is unchanged: its
chain, its total difficulty and its dict are pure values the call never
rebinds (the chain and the map are deep-copied before any mutation), and
every UserState object the old dict references is untouched on the heap,
because all writes of the replay target the deep copy.  (The proof does not
even need the failure hypothesis: successful reorgs preserve the old state
too, as the repository test asserts.) -/
theorem reorg_failure_preserves_old_state (c : Crypto) (old_state : HState) (h : Heap)
    (new_branch : List Block)
    (wf : ∀ r ∈ old_state.users.refs, r < h.next)
    (hfail : (verifyReorgH c old_state h new_branch).1 = none) :
    ∀ r ∈ old_state.users.refs,
      ((verifyReorgH c old_state h new_branch).2).val r = h.val r := by
  intro r hr
  cases new_branch with
  | nil => simp [verifyReorgH]
  | cons b0 bs =>
    obtain ⟨invc, fbc⟩ := deepcopyDict_spec h.next old_state.users h (le_refl _)
    rcases hcx : deepcopyDict old_state.users h with ⟨d0, h0⟩
    rw [hcx] at invc fbc
    obtain ⟨invu, fbu⟩ := undoAboveH_spec b0.height old_state.chain.length
      ⟨old_state.chain, d0, old_state.total⟩ h0 h.next invc
    rcases hux : undoAboveH b0.height old_state.chain.length
      ⟨old_state.chain, d0, old_state.total⟩ h0 with ⟨S1, h1⟩
    rw [hux] at invu fbu
    obtain ⟨fba, _⟩ := applyChainH_spec c (b0 :: bs) S1 h1 h.next invu
    rcases hax : applyChainH c (b0 :: bs) S1 h1 with ⟨res, h2⟩
    rw [hax] at fba
    have fbAll := frameBelow_trans fbc (frameBelow_trans fbu fba)
    have hval := fbAll.frame r (wf r hr)
    cases res with
    | none => simpa [verifyReorgH, hcx, hux, hax] using hval
    | some W =>
      by_cases hlt : old_state.total < W.total
      · simpa [verifyReorgH, hcx, hux, hax, hlt] using hval
      · simpa [verifyReorgH, hcx, hux, hax, hlt] using hval

/-- A block at the wrong height, making the replay of a reorg fail. -/
def blkH1 : Block := ⟨zeros32, 1, addrA, [], 0, 1000, zeros32, 0⟩

set_option maxRecDepth 100000 in
/-- Witness for C4: a reorg that fails on replay leaves the caller object at
reference 0 untouched. -/
theorem reorg_failure_preserves_old_state_witness :
    (verifyReorgH cryptoT hs1 heap1 [blkH1]).1 = none ∧
    ((verifyReorgH cryptoT hs1 heap1 [blkH1]).2).val 0 = heap1.val 0 :=
  ⟨by decide,
   reorg_failure_preserves_old_state cryptoT hs1 heap1 [blkH1] (by decide) (by decide)
     0 (by decide)⟩

/-!  C1: the shallow copy in update_states leaks partial effects to the
caller on failure. -/

/-- A transaction that fails verification (its sender hash is empty, not 20
bytes). -/
def badTx : Transaction := ⟨[], addrB, addrA, 5, 1, 1, zeros32, zeros32⟩

/-- A block that passes every header check but whose second transaction
fails verification: tx9 applies, then badTx raises. -/
def blkC1 : Block := ⟨zeros32, 0, addrA, [tx9, badTx], 0, 1000, zeros32, 0⟩

set_option maxRecDepth 100000 in
/-- C1 (code bug): verify_and_apply_block fails on blkC1 (its second
transaction is invalid) and leaves the chain and total difficulty of the
state unchanged, yet the UserState object the caller holds at reference 0
(miner addrA, balance 50 before the call) now reads balance 9575 and
nonce 0: the mining reward (+10000) and the first transaction (fee +25,
amount -500, nonce +1) leaked through the shallow copy
defaultdict(lambda: UserState(0,-1), previous_user_states) of blocks.py
line 127, contradicting the adjacent comment (so as not to overwrite old
states) and the spec. -/
theorem update_states_shallow_copy_mutates_caller :
    (verifyAndApplyBlockH cryptoT hs1 heap1 blkC1).1 = false ∧
    (verifyAndApplyBlockH cryptoT hs1 heap1 blkC1).2.1 = hs1 ∧
    ((verifyAndApplyBlockH cryptoT hs1 heap1 blkC1).2.2).val 0 = ⟨9575, 0⟩ ∧
    heap1.val 0 = ⟨50, -1⟩ := by
  decide

/-- Witness for C6: the empty chain yields 1000; a 12-block constant chain
exercises the retarget branch and yields 1200000; the 11-block scenario
yields 1200000. -/
theorem calculate_difficulty_spec_witness :
    (BlockchainState.mk [] emptyMap 0).calculate_difficulty = 1000 ∧
    (BlockchainState.mk (chain11 ++ chain11.take 1) emptyMap 0).calculate_difficulty
      = 1200000 ∧
    (BlockchainState.mk chain11 emptyMap 0).calculate_difficulty = 1200000 := by
  refine ⟨calculate_difficulty_spec.1 _ (by decide), ?_, calculate_difficulty_spec.2.2⟩
  exact (calculate_difficulty_spec.2.1 _ (by decide)).trans (by decide)
